import Mathlib

/-!
Verification of the mixgram-core history-rewrite engine (`core` package,
go-git based).  The Go source clones a remote repository into an in-memory
store, walks the branch tip back to the root (`repo.Log`, tip-first order),
rewrites the resulting linear commit chain (truncate / delete / amend),
writes the synthesized commit objects through the storer, moves the branch
reference and force-pushes.

Shallow embedding choices:
* A commit object is `Commit` (author, committer, message, tree hash, parent
  hashes), mirroring `object.Commit` restricted to the fields the engine
  reads and writes.  Tree objects are opaque: `oldCommit.Tree().Hash` always
  equals `oldCommit.TreeHash` in a fully cloned store, so `Tree()` is modelled
  as reading the `treeHash` field.
* Git's content addressing is modelled by an idealized injective encoding:
  `Commit.hash` packs every field of the commit into the inductive `Hash`.
  `Hash.enc` is the address of an encoded commit; `pnil`/`pcons` encode the
  parent-hash list portion of the encoding.  `storer.SetEncodedObject`
  returns exactly this content address.
* I/O failure is nondeterministic, so the operations take oracles: `failAt`
  says whether the n-th encode/persist step of the operation fails
  (`Commit.Encode` / `SetEncodedObject`), and `PushOutcome` is the result
  the transport reports for the final push (`git.NoErrAlreadyUpToDate` is a
  distinguished non-nil error value in go-git).
* The store is `Store`: the list of commit objects written by the operation
  plus the branch reference hash.  Clone/auth/worktree plumbing is external
  I/O and is not part of the rewrite engine; the operations therefore take
  the already-traversed tip-first chain as input, exactly the `commits`
  slice the Go code builds from `repo.Log` before rewriting.
* Go runtime panics (negative slice index, negative `make` capacity) are
  modelled as distinguished error outcomes.
-/

/-- `object.Signature`: name, email and timestamp (`When`). -/
structure Signature where
  name : String
  email : String
  date : Int
deriving DecidableEq, Inhabited

/-- Idealized content address.  `enc` is the address of an encoded commit
object (a function of all of its fields, as a real commit hash is a function
of the encoded bytes); `pnil`/`pcons` encode the parent-list part. -/
inductive Hash where
  | enc (author : Signature) (committer : Signature) (message : String)
        (treeHash : Nat) (parents : Hash)
  | pnil
  | pcons (h : Hash) (t : Hash)
deriving DecidableEq, Inhabited

/-- Encoding of a parent-hash list into the `Hash` alphabet. -/
def encodeParents : List Hash → Hash
  | [] => .pnil
  | h :: t => .pcons h (encodeParents t)

/-- `object.Commit` restricted to the fields the rewrite engine touches. -/
structure Commit where
  author : Signature
  committer : Signature
  message : String
  treeHash : Nat
  parentHashes : List Hash
deriving DecidableEq, Inhabited

/-- The content address of a commit object: what `storer.SetEncodedObject`
returns after `commit.Encode`. -/
def Commit.hash (c : Commit) : Hash :=
  .enc c.author c.committer c.message c.treeHash (encodeParents c.parentHashes)

/-- `var UserName = "MixGram"`. -/
def UserName : String := "MixGram"

/-- `var UserEmail = "admin@mixgram.org"`. -/
def UserEmail : String := "admin@mixgram.org"

/-- `object.Signature{Name: UserName, Email: UserEmail, When: time.Now()}` —
the committer identity every rewritten commit receives.  The Go code calls
`time.Now()` once per synthesized commit; the claims do not depend on the
timestamps, so the operations take a single rewrite instant `now`. -/
def mixSig (now : Int) : Signature :=
  { name := UserName, email := UserEmail, date := now }

/-- `plumbing.ZeroHash`: the zero value of `currentParentHash` before the
rebuild loops assign it.  It is never stored in a commit (the `i == 0`
iteration writes an empty parent list). -/
def zeroHash : Hash := .pnil

/-- The local object store as seen by one operation: the commit objects this
operation has written (`SetEncodedObject`) and the branch reference
(`SetReference`).  The cloned objects themselves are the `commits` input. -/
structure Store where
  objects : List Commit
  refHash : Hash
deriving DecidableEq, Inhabited

/-- Errors surfaced by the operations, plus Go runtime panics. -/
inductive GitError where
  | commitNotFound
  | cannotDeleteSoleCommit
  | encodeOrStore (msg : String)
  | pushFailed (msg : String)
  | panicIndexOutOfRange
  | makeSliceCapOutOfRange
deriving DecidableEq, Inhabited

/-- Result reported by the transport for a push.  go-git reports
`NoErrAlreadyUpToDate` as a non-nil error value. -/
inductive PushOutcome where
  | ok
  | alreadyUpToDate
  | failed (msg : String)
deriving DecidableEq, Inhabited

deriving instance DecidableEq for Except

/-- The final push of the three rewrite operations:
`if err := repo.Push(...); err != nil { return fmt.Errorf("push: %w", err) }`.
Any non-nil error — including `NoErrAlreadyUpToDate` — is returned to the
caller; it is NOT normalized here (only `PushCommit` normalizes it). -/
def finishPush (push : PushOutcome) (st : Store) : Store × Except GitError Unit :=
  match push with
  | .ok => (st, .ok ())
  | .alreadyUpToDate => (st, .error (.pushFailed "already up-to-date"))
  | .failed m => (st, .error (.pushFailed m))

/-- `SimpleCommit`: the JSON-facing summary written by `FetchCommits`. -/
structure SimpleCommit where
  hash : Hash
  author : String
  email : String
  message : String
  date : Int
deriving DecidableEq, Inhabited

/-- Construction of one `SimpleCommit` from a commit, as in the
`cIter.ForEach` body of `FetchCommits`. -/
def toSimpleCommit (c : Commit) : SimpleCommit :=
  { hash := c.hash, author := c.author.name, email := c.author.email,
    message := c.message, date := c.author.date }

/-- The `cIter.ForEach` loop of `FetchCommits`: stop (`io.EOF`) as soon as
`max > 0 && count >= max`, otherwise append the summary and continue. -/
def fetchLoop (max : Int) : List Commit → Nat → List SimpleCommit
  | [], _ => []
  | c :: rest, count =>
    if max > 0 ∧ max ≤ (count : Int) then []
    else toSimpleCommit c :: fetchLoop max rest (count + 1)

/-- `FetchCommits`: list the commits reachable from HEAD, newest first.
`results := make([]SimpleCommit, 0, max)` panics at runtime when `max < 0`
(`makeslice: cap out of range`), before the loop runs. -/
def FetchCommits (commits : List Commit) (max : Int) : Except GitError (List SimpleCommit) :=
  if max < 0 then .error .makeSliceCapOutOfRange
  else .ok (fetchLoop max commits 0)

/-- The shared rebuild loop of the rewrite operations
(`for i, oldCommit := range newCommits` in `DeleteCommit`/`ModifyCommit`;
`TrimOldCommits` runs the same body starting at `i = 1` after writing its
root separately).  Each iteration synthesizes a commit that copies author,
message (via `msgOf`, the identity except for the amended commit) and tree
hash, sets the MixGram committer, and parents it on `currentParentHash`
(`i == 0` ⇒ no parent).  `failAt i` tells whether the i-th
encode/`SetEncodedObject` fails.  Returns the objects written so far and
either the final head hash or the error. -/
def rebuildLoop (failAt : Nat → Bool) (now : Int) (msgOf : Commit → String) :
    List Commit → Nat → Hash → List Commit → List Commit × Except GitError Hash
  | [], _, cur, written => (written, .ok cur)
  | old :: rest, i, cur, written =>
    let newCommit : Commit :=
      { author := old.author
        committer := mixSig now
        message := msgOf old
        treeHash := old.treeHash
        parentHashes := if i = 0 then [] else [cur] }
    if failAt i then (written, .error (.encodeOrStore "store rebased commit"))
    else rebuildLoop failAt now msgOf rest (i + 1) newCommit.hash (written ++ [newCommit])

/-- `TrimOldCommits(repoURL, sshKeyPEM, keep)`: keep only the newest `keep`
commits.  `commits` is the tip-first chain from `repo.Log`.  Control flow:
`len(commits) <= keep` ⇒ success without rewriting or pushing; otherwise
`commits[keep-1]` — a runtime panic when `keep < 1` since the index is
negative — becomes the new parentless root, the `keep-1` newer commits are
rebuilt tip-ward, the reference moves to the final hash and is force-pushed. -/
def TrimOldCommits (failAt : Nat → Bool) (push : PushOutcome) (now : Int)
    (st : Store) (commits : List Commit) (keep : Int) : Store × Except GitError Unit :=
  if (commits.length : Int) ≤ keep then
    (st, .ok ())
  else if keep < 1 then
    (st, .error .panicIndexOutOfRange)
  else
    let k := keep.toNat
    let newRootAncestor := commits.getD (k - 1) default
    let newRootCommit : Commit :=
      { author := newRootAncestor.author
        committer := mixSig now
        message := newRootAncestor.message
        treeHash := newRootAncestor.treeHash
        parentHashes := [] }
    if failAt 0 then
      (st, .error (.encodeOrStore "store new root commit"))
    else
      let st1 : Store := { st with objects := st.objects ++ [newRootCommit] }
      match rebuildLoop failAt now (fun c => c.message)
          ((commits.take (k - 1)).reverse) 1 newRootCommit.hash [] with
      | (written, .error e) => ({ st1 with objects := st1.objects ++ written }, .error e)
      | (written, .ok finalHeadHash) =>
          finishPush push { objects := st1.objects ++ written, refHash := finalHeadHash }

/-- The `iter.ForEach` of `DeleteCommit`: `targetIndex` is set to the index
of the latest matching commit, `-1` when none matches.  On a valid chain
hashes are pairwise distinct, so at most one commit matches. -/
def findTargetIdx (targetHash : Hash) : List Commit → Int
  | [] => -1
  | c :: rest =>
    let r := findTargetIdx targetHash rest
    if r ≠ -1 then r + 1
    else if c.hash = targetHash then 0
    else -1

/-- `DeleteCommit(repoURL, sshKeyPEM, commitHash)`: drop the matching commit
from the tip-first chain and rebuild the rest.  The not-found check runs
before the sole-commit check.  `newCommits` is built root-first by the
downward loop that skips `targetIndex`. -/
def DeleteCommit (failAt : Nat → Bool) (push : PushOutcome) (now : Int)
    (st : Store) (commits : List Commit) (commitHash : Hash) : Store × Except GitError Unit :=
  let targetIndex := findTargetIdx commitHash commits
  if targetIndex = -1 then
    (st, .error .commitNotFound)
  else if commits.length = 1 then
    (st, .error .cannotDeleteSoleCommit)
  else
    let newCommits := (commits.eraseIdx targetIndex.toNat).reverse
    match rebuildLoop failAt now (fun c => c.message) newCommits 0 zeroHash [] with
    | (written, .error e) => ({ st with objects := st.objects ++ written }, .error e)
    | (written, .ok finalHeadHash) =>
        finishPush push { objects := st.objects ++ written, refHash := finalHeadHash }

/-- `ModifyCommit(repoURL, sshKeyPEM, commitHash, newCommitMsg)`: rebuild the
whole chain root-first, replacing the message of the commit whose (original)
hash matches `commitHash`. -/
def ModifyCommit (failAt : Nat → Bool) (push : PushOutcome) (now : Int)
    (st : Store) (commits : List Commit) (commitHash : Hash) (newCommitMsg : String) :
    Store × Except GitError Unit :=
  let foundTarget := commits.any (fun c => decide (c.hash = commitHash))
  if !foundTarget then
    (st, .error .commitNotFound)
  else
    let rootToHead := commits.reverse
    match rebuildLoop failAt now
        (fun c => if c.hash = commitHash then newCommitMsg else c.message)
        rootToHead 0 zeroHash [] with
    | (written, .error e) => ({ st with objects := st.objects ++ written }, .error e)
    | (written, .ok finalHeadHash) =>
        finishPush push { objects := st.objects ++ written, refHash := finalHeadHash }

/-- `PushCommit(repoURL, sshKeyPEM, commitMsg)`: write a random README into
the worktree (the resulting tree hash `newTree` is produced by the external
store), commit it on top of the current tip with the MixGram author
(go-git uses the author as committer when none is given), and push.  Here —
and only here — `errors.Is(err, git.NoErrAlreadyUpToDate)` is normalized to
success. -/
def PushCommit (push : PushOutcome) (now : Int) (msg : String) (newTree : Nat)
    (st : Store) (commits : List Commit) : Store × Except GitError Unit :=
  let newCommit : Commit :=
    { author := mixSig now
      committer := mixSig now
      message := msg
      treeHash := newTree
      parentHashes := match commits with | [] => [] | c :: _ => [c.hash] }
  let st1 : Store := { objects := st.objects ++ [newCommit], refHash := newCommit.hash }
  match push with
  | .ok => (st1, .ok ())
  | .alreadyUpToDate => (st1, .ok ())
  | .failed m => (st1, .error (.pushFailed m))

/-- Root-first linkage: each commit's sole parent is the previous hash. -/
def linkedRF (prev : Hash) : List Commit → Bool
  | [] => true
  | c :: rest => decide (c.parentHashes = [prev]) && linkedRF c.hash rest

/-- A root-first list is a well-formed linear chain: the first (oldest)
commit has no parent and every later commit's sole parent is the hash of
its predecessor.  The tip-first `commits` slice collected from `repo.Log`
is a chain iff `chainRF commits.reverse`. -/
def chainRF : List Commit → Bool
  | [] => true
  | c :: rest => decide (c.parentHashes = []) && linkedRF c.hash rest

/-- Pure description of what `rebuildLoop` writes when no encode/persist
step fails: the synthesized commits in root-first (write) order. -/
def synthChain (now : Int) (msgOf : Commit → String) :
    List Commit → Nat → Hash → List Commit
  | [], _, _ => []
  | old :: rest, i, cur =>
    let newCommit : Commit :=
      { author := old.author
        committer := mixSig now
        message := msgOf old
        treeHash := old.treeHash
        parentHashes := if i = 0 then [] else [cur] }
    newCommit :: synthChain now msgOf rest (i + 1) newCommit.hash

/-- Hash of the last commit of a root-first list (the new tip), or the
default when the list is empty. -/
def lastHash (d : Hash) (l : List Commit) : Hash :=
  ((l.getLast?).map Commit.hash).getD d

theorem encodeParents_inj : ∀ {a b : List Hash}, encodeParents a = encodeParents b → a = b
  | [], [], _ => rfl
  | [], _ :: _, h => by simp [encodeParents] at h
  | _ :: _, [], h => by simp [encodeParents] at h
  | x :: xs, y :: ys, h => by
    simp only [encodeParents, Hash.pcons.injEq] at h
    rw [h.1, encodeParents_inj h.2]

/-- The content address is injective: two commit objects with the same hash
are bit-identical.  (Real SHA-1 is collision-resistant; the model idealizes
it as injective, the standard reading of a content-addressed store.) -/
theorem Commit.hash_inj {c d : Commit} (h : c.hash = d.hash) : c = d := by
  cases c; cases d
  simp only [Commit.hash, Hash.enc.injEq] at h
  obtain ⟨h1, h2, h3, h4, h5⟩ := h
  simp [h1, h2, h3, h4, encodeParents_inj h5]

theorem sizeOf_mem_encodeParents : ∀ (l : List Hash), ∀ x ∈ l, sizeOf x < sizeOf (encodeParents l)
  | [], x, hx => absurd hx (List.not_mem_nil x)
  | a :: t, x, hx => by
    simp only [encodeParents]
    rcases List.mem_cons.mp hx with h | h
    · subst h; simp; omega
    · have := sizeOf_mem_encodeParents t x h
      simp; omega

theorem sizeOf_parent_lt_hash (c : Commit) (h : Hash) (hm : h ∈ c.parentHashes) :
    sizeOf h < sizeOf c.hash := by
  have := sizeOf_mem_encodeParents c.parentHashes h hm
  simp only [Commit.hash, Hash.enc.sizeOf_spec]
  omega

theorem linkedRF_sizeOf : ∀ (l : List Commit) (prev : Hash), linkedRF prev l = true →
    ∀ c ∈ l, sizeOf prev < sizeOf c.hash
  | [], _, _, c, hc => absurd hc (List.not_mem_nil c)
  | a :: t, prev, h, c, hc => by
    simp only [linkedRF, Bool.and_eq_true, decide_eq_true_eq] at h
    obtain ⟨hp, hl⟩ := h
    have hpa : sizeOf prev < sizeOf a.hash :=
      sizeOf_parent_lt_hash a prev (hp ▸ List.mem_singleton_self prev)
    rcases List.mem_cons.mp hc with h | h
    · subst h; exact hpa
    · exact lt_trans hpa (linkedRF_sizeOf t a.hash hl c h)

theorem linkedRF_pairwise : ∀ (l : List Commit) (prev : Hash), linkedRF prev l = true →
    l.Pairwise (fun a b => sizeOf a.hash < sizeOf b.hash)
  | [], _, _ => List.Pairwise.nil
  | a :: t, prev, h => by
    simp only [linkedRF, Bool.and_eq_true, decide_eq_true_eq] at h
    exact List.Pairwise.cons (linkedRF_sizeOf t a.hash h.2) (linkedRF_pairwise t a.hash h.2)

/-- On a well-formed chain no commit hash repeats (each hash strictly
contains its parent's encoding, so sizes strictly increase root-to-tip). -/
theorem chainRF_pairwise_ne (l : List Commit) (h : chainRF l = true) :
    l.Pairwise (fun a b => a.hash ≠ b.hash) := by
  have hp : l.Pairwise (fun a b => sizeOf a.hash < sizeOf b.hash) := by
    cases l with
    | nil => exact List.Pairwise.nil
    | cons a t =>
      simp only [chainRF, Bool.and_eq_true, decide_eq_true_eq] at h
      exact List.Pairwise.cons (linkedRF_sizeOf t a.hash h.2) (linkedRF_pairwise t a.hash h.2)
  exact hp.imp fun hlt => fun he => absurd (he ▸ hlt) (lt_irrefl _)

theorem linkedRF_head (prev : Hash) (c : Commit) (rest : List Commit)
    (h : linkedRF prev (c :: rest) = true) :
    c.parentHashes = [prev] ∧ linkedRF c.hash rest = true := by
  simpa only [linkedRF, Bool.and_eq_true, decide_eq_true_eq] using h

theorem linkedRF_getD_step : ∀ (l : List Commit) (prev : Hash), linkedRF prev l = true →
    ∀ i : Nat, i + 1 < l.length →
      (l.getD (i + 1) default).parentHashes = [(l.getD i default).hash]
  | [], _, _, i, hi => by simp at hi
  | c :: rest, prev, h, i, hi => by
    obtain ⟨hp, hl⟩ := linkedRF_head prev c rest h
    cases i with
    | zero =>
      cases rest with
      | nil => simp at hi
      | cons d rest' =>
        have := (linkedRF_head c.hash d rest' hl).1
        simpa using this
    | succ j =>
      have hlen : j + 1 < rest.length := by simpa using hi
      simpa using linkedRF_getD_step rest c.hash hl j hlen

theorem chainRF_head (c : Commit) (rest : List Commit)
    (h : chainRF (c :: rest) = true) :
    c.parentHashes = [] ∧ linkedRF c.hash rest = true := by
  simpa only [chainRF, Bool.and_eq_true, decide_eq_true_eq] using h

/-- Index form of `chainRF`: each non-root commit's sole parent is the hash
of its root-first predecessor. -/
theorem chainRF_getD_step (l : List Commit) (h : chainRF l = true)
    (i : Nat) (hi : i + 1 < l.length) :
    (l.getD (i + 1) default).parentHashes = [(l.getD i default).hash] := by
  cases l with
  | nil => simp at hi
  | cons c rest =>
    obtain ⟨hp, hl⟩ := chainRF_head c rest h
    cases i with
    | zero =>
      cases rest with
      | nil => simp at hi
      | cons d rest' =>
        have := (linkedRF_head c.hash d rest' hl).1
        simpa using this
    | succ j =>
      have hlen : j + 1 < rest.length := by simpa using hi
      simpa using linkedRF_getD_step rest c.hash hl j hlen

theorem synthChain_length (now : Int) (msgOf : Commit → String) :
    ∀ (olds : List Commit) (i : Nat) (cur : Hash),
      (synthChain now msgOf olds i cur).length = olds.length
  | [], _, _ => rfl
  | _ :: rest, i, _ => by
    simp [synthChain, synthChain_length now msgOf rest (i + 1)]

theorem synthChain_map_message (now : Int) (msgOf : Commit → String) :
    ∀ (olds : List Commit) (i : Nat) (cur : Hash),
      (synthChain now msgOf olds i cur).map (fun c => c.message) = olds.map msgOf
  | [], _, _ => rfl
  | _ :: rest, i, _ => by
    simp [synthChain, synthChain_map_message now msgOf rest (i + 1)]

theorem synthChain_map_treeHash (now : Int) (msgOf : Commit → String) :
    ∀ (olds : List Commit) (i : Nat) (cur : Hash),
      (synthChain now msgOf olds i cur).map (fun c => c.treeHash) =
        olds.map (fun c => c.treeHash)
  | [], _, _ => rfl
  | _ :: rest, i, _ => by
    simp [synthChain, synthChain_map_treeHash now msgOf rest (i + 1)]

theorem synthChain_map_author (now : Int) (msgOf : Commit → String) :
    ∀ (olds : List Commit) (i : Nat) (cur : Hash),
      (synthChain now msgOf olds i cur).map (fun c => c.author) =
        olds.map (fun c => c.author)
  | [], _, _ => rfl
  | _ :: rest, i, _ => by
    simp [synthChain, synthChain_map_author now msgOf rest (i + 1)]

theorem synthChain_committer (now : Int) (msgOf : Commit → String) :
    ∀ (olds : List Commit) (i : Nat) (cur : Hash),
      ∀ c ∈ synthChain now msgOf olds i cur, c.committer = mixSig now
  | [], _, _, c, hc => absurd hc (List.not_mem_nil c)
  | old :: rest, i, cur, c, hc => by
    simp only [synthChain, List.mem_cons] at hc
    rcases hc with h | h
    · rw [h]
    · exact synthChain_committer now msgOf rest (i + 1) _ c h

theorem synthChain_linkedRF (now : Int) (msgOf : Commit → String) :
    ∀ (olds : List Commit) (i : Nat) (cur : Hash), i ≠ 0 →
      linkedRF cur (synthChain now msgOf olds i cur) = true
  | [], _, _, _ => rfl
  | old :: rest, i, cur, hi => by
    simp only [synthChain, linkedRF, Bool.and_eq_true, decide_eq_true_eq]
    constructor
    · simp [hi]
    · exact synthChain_linkedRF now msgOf rest (i + 1) _ (Nat.succ_ne_zero i)

/-- The rebuild loop started at index 0 produces a well-formed chain. -/
theorem synthChain_chainRF (now : Int) (msgOf : Commit → String)
    (olds : List Commit) (cur : Hash) :
    chainRF (synthChain now msgOf olds 0 cur) = true := by
  cases olds with
  | nil => rfl
  | cons old rest =>
    simp only [synthChain, chainRF, Bool.and_eq_true, decide_eq_true_eq]
    exact ⟨by simp, synthChain_linkedRF now msgOf rest 1 _ one_ne_zero⟩

theorem lastHash_cons (d : Hash) (c : Commit) (l : List Commit) :
    lastHash d (c :: l) = lastHash c.hash l := by
  cases l with
  | nil => simp [lastHash]
  | cons e t =>
    have h : (e :: t).getLast?.isSome := by simp [List.getLast?_isSome]
    obtain ⟨x, hx⟩ := Option.isSome_iff_exists.mp h
    simp [lastHash, List.getLast?_cons_cons, hx]

/-- A run of the rebuild loop in which no encode/persist step fails writes
exactly the synthesized chain and ends with the hash of its last commit. -/
theorem rebuildLoop_noFail (now : Int) (msgOf : Commit → String) :
    ∀ (olds : List Commit) (i : Nat) (cur : Hash) (written : List Commit),
      rebuildLoop (fun _ => false) now msgOf olds i cur written =
        (written ++ synthChain now msgOf olds i cur,
         .ok (lastHash cur (synthChain now msgOf olds i cur)))
  | [], _, _, written => by simp [rebuildLoop, synthChain, lastHash]
  | old :: rest, i, cur, written => by
    simp only [rebuildLoop, synthChain, Bool.false_eq_true, if_false]
    rw [rebuildLoop_noFail now msgOf rest (i + 1)]
    simp [lastHash_cons]

/-- Whatever error the rebuild loop reports is an encode/persist error. -/
theorem rebuildLoop_error_shape (failAt : Nat → Bool) (now : Int) (msgOf : Commit → String) :
    ∀ (olds : List Commit) (i : Nat) (cur : Hash) (written w : List Commit) (e : GitError),
      rebuildLoop failAt now msgOf olds i cur written = (w, .error e) →
      e = .encodeOrStore "store rebased commit"
  | [], _, _, written, w, e, h => by simp [rebuildLoop] at h
  | old :: rest, i, cur, written, w, e, h => by
    simp only [rebuildLoop] at h
    by_cases hf : failAt i = true
    · simp [hf] at h
      exact h.2.symm
    · simp only [hf, Bool.false_eq_true, if_false] at h
      exact rebuildLoop_error_shape failAt now msgOf rest (i + 1) _ _ _ _ h

theorem findTargetIdx_nonneg_or (t : Hash) :
    ∀ l : List Commit, findTargetIdx t l = -1 ∨ 0 ≤ findTargetIdx t l
  | [] => Or.inl rfl
  | c :: rest => by
    simp only [findTargetIdx]
    rcases findTargetIdx_nonneg_or t rest with h | h
    · rw [h]
      by_cases hc : c.hash = t <;> simp [hc]
    · by_cases hr : findTargetIdx t rest = -1
      · rw [hr]
        by_cases hc : c.hash = t <;> simp [hc]
      · simp only [ne_eq, hr, not_false_eq_true, if_true]
        omega

theorem findTargetIdx_none (t : Hash) :
    ∀ l : List Commit, (∀ c ∈ l, c.hash ≠ t) → findTargetIdx t l = -1
  | [], _ => rfl
  | c :: rest, h => by
    have hr : findTargetIdx t rest = -1 :=
      findTargetIdx_none t rest fun d hd => h d (List.mem_cons_of_mem c hd)
    have hc : ¬ c.hash = t := h c (List.mem_cons_self c rest)
    simp [findTargetIdx, hr, hc]

theorem findTargetIdx_ne_neg_one (t : Hash) :
    ∀ (l : List Commit), ∀ c ∈ l, c.hash = t → findTargetIdx t l ≠ -1
  | [], c, hc, _ => absurd hc (List.not_mem_nil c)
  | d :: rest, c, hc, ht => by
    simp only [findTargetIdx]
    rcases List.mem_cons.mp hc with h | h
    · by_cases hr : findTargetIdx t rest = -1
      · subst h
        simp [hr, ht]
      · have := findTargetIdx_nonneg_or t rest
        simp only [ne_eq, hr, not_false_eq_true, if_true]
        omega
    · have hne := findTargetIdx_ne_neg_one t rest c h ht
      have := findTargetIdx_nonneg_or t rest
      simp only [ne_eq, hne, not_false_eq_true, if_true]
      omega

/-- The index the `DeleteCommit` loop records, on a list where nothing after
the target matches: the position of the target. -/
theorem findTargetIdx_decomp (t : Hash) (c : Commit) (hc : c.hash = t) :
    ∀ (pre post : List Commit), (∀ d ∈ post, d.hash ≠ t) →
      findTargetIdx t (pre ++ c :: post) = (pre.length : Int)
  | [], post, hpost => by
    have hr : findTargetIdx t post = -1 := findTargetIdx_none t post hpost
    simp [findTargetIdx, hr, hc]
  | d :: pre, post, hpost => by
    have ih := findTargetIdx_decomp t c hc pre post hpost
    have key : findTargetIdx t ((d :: pre) ++ c :: post) =
        (if findTargetIdx t (pre ++ c :: post) ≠ -1 then findTargetIdx t (pre ++ c :: post) + 1
         else if d.hash = t then 0 else -1) := rfl
    rw [key, if_pos (by rw [ih]; omega), ih]
    simp only [List.length_cons]
    push_cast
    ring

theorem eraseIdx_append_cons (c : Commit) :
    ∀ (pre post : List Commit), (pre ++ c :: post).eraseIdx pre.length = pre ++ post
  | [], post => rfl
  | d :: pre, post => by
    have key : ((d :: pre) ++ c :: post).eraseIdx (d :: pre).length =
        d :: ((pre ++ c :: post).eraseIdx pre.length) := rfl
    rw [key, eraseIdx_append_cons c pre post]
    rfl

/-- On a valid chain a present target hash occurs exactly once; split the
tip-first list around it. -/
theorem chain_target_decomp (commits : List Commit) (t : Hash)
    (hchain : chainRF commits.reverse = true)
    (tc : Commit) (hm : tc ∈ commits) (ht : tc.hash = t) :
    ∃ pre post, commits = pre ++ tc :: post ∧
      (∀ d ∈ pre, d.hash ≠ t) ∧ (∀ d ∈ post, d.hash ≠ t) := by
  have hpw : commits.Pairwise (fun a b => b.hash ≠ a.hash) := by
    have := chainRF_pairwise_ne commits.reverse hchain
    exact (List.pairwise_reverse).mp this
  obtain ⟨pre, post, rfl⟩ := List.append_of_mem hm
  refine ⟨pre, post, rfl, ?_, ?_⟩
  · have := (List.pairwise_append.mp hpw).2.2
    intro d hd
    have h1 := this d hd tc (List.mem_cons_self tc post)
    exact fun he => h1 (ht ▸ he ▸ rfl)
  · have := List.pairwise_cons.mp (List.pairwise_append.mp hpw).2.1
    intro d hd
    have h1 := this.1 d hd
    exact fun he => h1 (by rw [he, ht])

theorem fetchLoop_nonpos (max : Int) (h : max ≤ 0) :
    ∀ (l : List Commit) (count : Nat), fetchLoop max l count = l.map toSimpleCommit
  | [], _ => rfl
  | c :: rest, count => by
    have hg : ¬ (max > 0 ∧ max ≤ (count : Int)) := by omega
    simp [fetchLoop, hg, fetchLoop_nonpos max h rest (count + 1)]

theorem fetchLoop_pos (max : Int) (h : 0 < max) :
    ∀ (l : List Commit) (count : Nat),
      fetchLoop max l count = (l.take (max.toNat - count)).map toSimpleCommit
  | [], _ => by simp [fetchLoop]
  | c :: rest, count => by
    by_cases hg : max ≤ (count : Int)
    · have : max.toNat - count = 0 := by omega
      simp [fetchLoop, h, hg, this]
    · have h1 : max.toNat - count = (max.toNat - (count + 1)) + 1 := by omega
      have hng : ¬ (max > 0 ∧ max ≤ (count : Int)) := by omega
      simp only [fetchLoop, hng, if_false, h1, List.take_succ_cons, List.map_cons]
      rw [fetchLoop_pos max h rest (count + 1)]

/-- The parentless new root `TrimOldCommits` synthesizes from
`newRootAncestor := commits[keep-1]`. -/
def trimRoot (now : Int) (commits : List Commit) (k : Nat) : Commit :=
  let a := commits.getD (k - 1) default
  { author := a.author
    committer := mixSig now
    message := a.message
    treeHash := a.treeHash
    parentHashes := [] }

/-- Root-first chain written by a successful `TrimOldCommits`: the new root
followed by the rebuilt copies of `commits[keep-2] … commits[0]`. -/
def trimChain (now : Int) (commits : List Commit) (k : Nat) : List Commit :=
  trimRoot now commits k ::
    synthChain now (fun c => c.message) ((commits.take (k - 1)).reverse) 1
      (trimRoot now commits k).hash

theorem trim_run_noFail (push : PushOutcome) (now : Int) (st : Store)
    (commits : List Commit) (keep : Int)
    (h1 : ¬ (commits.length : Int) ≤ keep) (h2 : 1 ≤ keep) :
    TrimOldCommits (fun _ => false) push now st commits keep =
      finishPush push
        { objects := st.objects ++ trimChain now commits keep.toNat,
          refHash := lastHash zeroHash (trimChain now commits keep.toNat) } := by
  have h3 : ¬ keep < 1 := by omega
  unfold TrimOldCommits
  simp only [h1, if_false, h3, Bool.false_eq_true]
  rw [rebuildLoop_noFail]
  simp [trimChain, trimRoot, lastHash_cons, List.append_assoc]

theorem delete_run_noFail (push : PushOutcome) (now : Int) (st : Store)
    (commits : List Commit) (commitHash : Hash)
    (h1 : findTargetIdx commitHash commits ≠ -1) (h2 : commits.length ≠ 1) :
    DeleteCommit (fun _ => false) push now st commits commitHash =
      finishPush push
        { objects := st.objects ++
            synthChain now (fun c => c.message)
              ((commits.eraseIdx (findTargetIdx commitHash commits).toNat).reverse) 0 zeroHash,
          refHash := lastHash zeroHash
            (synthChain now (fun c => c.message)
              ((commits.eraseIdx (findTargetIdx commitHash commits).toNat).reverse) 0 zeroHash) } := by
  unfold DeleteCommit
  simp only [h1, if_false, h2]
  rw [rebuildLoop_noFail]
  simp

theorem modify_run_noFail (push : PushOutcome) (now : Int) (st : Store)
    (commits : List Commit) (commitHash : Hash) (newCommitMsg : String)
    (h1 : commits.any (fun c => decide (c.hash = commitHash)) = true) :
    ModifyCommit (fun _ => false) push now st commits commitHash newCommitMsg =
      finishPush push
        { objects := st.objects ++
            synthChain now (fun c => if c.hash = commitHash then newCommitMsg else c.message)
              commits.reverse 0 zeroHash,
          refHash := lastHash zeroHash
            (synthChain now (fun c => if c.hash = commitHash then newCommitMsg else c.message)
              commits.reverse 0 zeroHash) } := by
  unfold ModifyCommit
  simp only [h1, Bool.not_true, Bool.false_eq_true, if_false]
  rw [rebuildLoop_noFail]
  simp

theorem trim_run_noop (failAt : Nat → Bool) (push : PushOutcome) (now : Int)
    (st : Store) (commits : List Commit) (keep : Int)
    (h : (commits.length : Int) ≤ keep) :
    TrimOldCommits failAt push now st commits keep = (st, .ok ()) := by
  unfold TrimOldCommits
  simp [h]

theorem take_reverse_succ (l : List Commit) (n : Nat) (h : n < l.length) :
    (l.take (n + 1)).reverse = l.getD n default :: (l.take n).reverse := by
  rw [List.take_succ, List.getElem?_eq_getElem h, List.getD_eq_getElem l default h]
  simp [List.reverse_append]

theorem synthChain_getD_committer (now : Int) (msgOf : Commit → String)
    (olds : List Commit) (i : Nat) (cur : Hash) (j : Nat)
    (h : j < (synthChain now msgOf olds i cur).length) :
    ((synthChain now msgOf olds i cur).getD j default).committer = mixSig now := by
  apply synthChain_committer now msgOf olds i cur
  rw [List.getD_eq_getElem _ default h]
  exact List.getElem_mem h

theorem Commit.hash_ne_of_committer_ne {c d : Commit} (h : c.committer ≠ d.committer) :
    c.hash ≠ d.hash :=
  fun he => h (congrArg Commit.committer (Commit.hash_inj he))

/-- Concrete data for the witnesses: `c0` is a root commit, `c1` its child;
`chain2` is the tip-first order produced by the log traversal. -/
def sigA : Signature := { name := "alice", email := "a@x", date := 1 }

def c0 : Commit :=
  { author := sigA, committer := sigA, message := "a", treeHash := 10, parentHashes := [] }

def c1 : Commit :=
  { author := sigA, committer := sigA, message := "b", treeHash := 11, parentHashes := [c0.hash] }

def chain2 : List Commit := [c1, c0]

def st0 : Store := { objects := [], refHash := c1.hash }

/-- A degenerate sole commit whose committer is already the rewrite identity
at instant 5 — rebuilding it at instant 5 reproduces it bit for bit. -/
def cm : Commit :=
  { author := sigA, committer := mixSig 5, message := "a", treeHash := 10, parentHashes := [] }

def stm : Store := { objects := [], refHash := cm.hash }

/-- C9: whenever the chain length is at most `keep`, `TrimOldCommits` is a
no-op: it reports success without writing any commit object, without moving
the branch reference, and without pushing (the outcome is independent of the
push and failure oracles).  With `keep = L` this is the idempotence case. -/
theorem trim_noop_when_short (failAt : Nat → Bool) (push : PushOutcome) (now : Int)
    (st : Store) (commits : List Commit) (keep : Int)
    (h : (commits.length : Int) ≤ keep) :
    TrimOldCommits failAt push now st commits keep = (st, .ok ()) :=
  trim_run_noop failAt push now st commits keep h

theorem trim_noop_when_short_witness :
    ((chain2.length : Int) ≤ 2) ∧
      TrimOldCommits (fun _ => true) .alreadyUpToDate 7 st0 chain2 2 = (st0, .ok ()) :=
  ⟨by decide,
   trim_noop_when_short (fun _ => true) .alreadyUpToDate 7 st0 chain2 2 (by decide)⟩

/-- C10: on a nonempty chain, `keep ≤ 0` escapes the `len(commits) <= keep`
guard, so `TrimOldCommits` reaches `commits[keep-1]` with a negative index —
a Go runtime panic; and with `keep ≥ 1` the rewrite path never produces that
panic (the index is in bounds). -/
theorem trim_nonpositive_keep_panics :
    (∀ (failAt : Nat → Bool) (push : PushOutcome) (now : Int) (st : Store)
        (commits : List Commit) (keep : Int), 1 ≤ commits.length → keep ≤ 0 →
      TrimOldCommits failAt push now st commits keep = (st, .error .panicIndexOutOfRange)) ∧
    (∀ (failAt : Nat → Bool) (push : PushOutcome) (now : Int) (st : Store)
        (commits : List Commit) (keep : Int), 1 ≤ keep →
      (TrimOldCommits failAt push now st commits keep).2 ≠ .error .panicIndexOutOfRange) := by
  constructor
  · intro failAt push now st commits keep hlen hkeep
    have hc : (1 : Int) ≤ (commits.length : Int) := by exact_mod_cast hlen
    have h1 : ¬ (commits.length : Int) ≤ keep := by omega
    have h2 : keep < 1 := by omega
    unfold TrimOldCommits
    simp [h1, h2]
  · intro failAt push now st commits keep hkeep
    unfold TrimOldCommits
    by_cases h1 : (commits.length : Int) ≤ keep
    · simp [h1]
    · have h2 : ¬ keep < 1 := by omega
      simp only [h1, if_false, h2]
      by_cases h3 : failAt 0 = true
      · simp [h3]
      · simp only [h3, Bool.false_eq_true, if_false]
        split
        · next w e heq =>
          have he := rebuildLoop_error_shape _ _ _ _ _ _ _ _ _ heq
          simp [he]
        · next w fh heq =>
          cases push <;> simp [finishPush]

theorem trim_nonpositive_keep_panics_witness :
    (1 ≤ chain2.length ∧
      TrimOldCommits (fun _ => false) .ok 0 st0 chain2 0 = (st0, .error .panicIndexOutOfRange)) ∧
    ((1 : Int) ≤ 1 ∧
      (TrimOldCommits (fun _ => false) .ok 0 st0 chain2 1).2 ≠ .error .panicIndexOutOfRange) :=
  ⟨⟨by decide, trim_nonpositive_keep_panics.1 (fun _ => false) .ok 0 st0 chain2 0 (by decide) (by decide)⟩,
   ⟨by decide, trim_nonpositive_keep_panics.2 (fun _ => false) .ok 0 st0 chain2 1 (by decide)⟩⟩

theorem trim_ref_or_push (failAt : Nat → Bool) (push : PushOutcome) (now : Int)
    (st : Store) (commits : List Commit) (keep : Int) :
    (TrimOldCommits failAt push now st commits keep).1.refHash = st.refHash ∨
    (TrimOldCommits failAt push now st commits keep).2 = .ok () ∨
    (∃ m, (TrimOldCommits failAt push now st commits keep).2 = .error (.pushFailed m)) := by
  unfold TrimOldCommits
  by_cases h1 : (commits.length : Int) ≤ keep
  · left; simp [h1]
  · by_cases h2 : keep < 1
    · left; simp [h1, h2]
    · simp only [h1, if_false, h2]
      by_cases h3 : failAt 0 = true
      · left; simp [h3]
      · simp only [h3, Bool.false_eq_true, if_false]
        split
        · left; simp
        · cases push with
          | ok => right; left; simp [finishPush]
          | alreadyUpToDate => right; right; exact ⟨"already up-to-date", by simp [finishPush]⟩
          | failed m => right; right; exact ⟨m, by simp [finishPush]⟩

theorem delete_ref_or_push (failAt : Nat → Bool) (push : PushOutcome) (now : Int)
    (st : Store) (commits : List Commit) (commitHash : Hash) :
    (DeleteCommit failAt push now st commits commitHash).1.refHash = st.refHash ∨
    (DeleteCommit failAt push now st commits commitHash).2 = .ok () ∨
    (∃ m, (DeleteCommit failAt push now st commits commitHash).2 = .error (.pushFailed m)) := by
  unfold DeleteCommit
  by_cases h1 : findTargetIdx commitHash commits = -1
  · left; simp [h1]
  · by_cases h2 : commits.length = 1
    · left; simp [h1, h2]
    · simp only [h1, if_false, h2]
      split
      · left; simp
      · cases push with
        | ok => right; left; simp [finishPush]
        | alreadyUpToDate => right; right; exact ⟨"already up-to-date", by simp [finishPush]⟩
        | failed m => right; right; exact ⟨m, by simp [finishPush]⟩

theorem modify_ref_or_push (failAt : Nat → Bool) (push : PushOutcome) (now : Int)
    (st : Store) (commits : List Commit) (commitHash : Hash) (newMsg : String) :
    (ModifyCommit failAt push now st commits commitHash newMsg).1.refHash = st.refHash ∨
    (ModifyCommit failAt push now st commits commitHash newMsg).2 = .ok () ∨
    (∃ m, (ModifyCommit failAt push now st commits commitHash newMsg).2 =
      .error (.pushFailed m)) := by
  unfold ModifyCommit
  by_cases h1 : commits.any (fun c => decide (c.hash = commitHash)) = true
  · simp only [h1, Bool.not_true, Bool.false_eq_true, if_false]
    split
    · left; simp
    · cases push with
      | ok => right; left; simp [finishPush]
      | alreadyUpToDate => right; right; exact ⟨"already up-to-date", by simp [finishPush]⟩
      | failed m => right; right; exact ⟨m, by simp [finishPush]⟩
  · left
    simp only [Bool.not_eq_true] at h1
    simp [h1]

/-- C5: for each rewrite operation, an encode/persist failure for a
synthesized commit makes the operation return an error with the branch
reference exactly as it was: `SetReference` runs only after every write
succeeded, so the visible history is untouched. -/
theorem encode_failure_preserves_ref :
    (∀ (failAt : Nat → Bool) (push : PushOutcome) (now : Int) (st : Store)
        (commits : List Commit) (keep : Int) (m : String),
      (TrimOldCommits failAt push now st commits keep).2 = .error (.encodeOrStore m) →
      (TrimOldCommits failAt push now st commits keep).1.refHash = st.refHash) ∧
    (∀ (failAt : Nat → Bool) (push : PushOutcome) (now : Int) (st : Store)
        (commits : List Commit) (commitHash : Hash) (m : String),
      (DeleteCommit failAt push now st commits commitHash).2 = .error (.encodeOrStore m) →
      (DeleteCommit failAt push now st commits commitHash).1.refHash = st.refHash) ∧
    (∀ (failAt : Nat → Bool) (push : PushOutcome) (now : Int) (st : Store)
        (commits : List Commit) (commitHash : Hash) (newMsg : String) (m : String),
      (ModifyCommit failAt push now st commits commitHash newMsg).2 = .error (.encodeOrStore m) →
      (ModifyCommit failAt push now st commits commitHash newMsg).1.refHash = st.refHash) := by
  refine ⟨?_, ?_, ?_⟩
  · intro failAt push now st commits keep m h
    rcases trim_ref_or_push failAt push now st commits keep with h1 | h1 | ⟨m', h1⟩ <;>
      first
        | exact h1
        | (rw [h] at h1; cases h1)
  · intro failAt push now st commits commitHash m h
    rcases delete_ref_or_push failAt push now st commits commitHash with h1 | h1 | ⟨m', h1⟩ <;>
      first
        | exact h1
        | (rw [h] at h1; cases h1)
  · intro failAt push now st commits commitHash newMsg m h
    rcases modify_ref_or_push failAt push now st commits commitHash newMsg with h1 | h1 | ⟨m', h1⟩ <;>
      first
        | exact h1
        | (rw [h] at h1; cases h1)

theorem encode_failure_preserves_ref_witness :
    (TrimOldCommits (fun _ => true) .ok 0 st0 chain2 1).2 =
      .error (.encodeOrStore "store new root commit") ∧
    (TrimOldCommits (fun _ => true) .ok 0 st0 chain2 1).1.refHash = st0.refHash :=
  ⟨by decide,
   encode_failure_preserves_ref.1 (fun _ => true) .ok 0 st0 chain2 1
     "store new root commit" (by decide)⟩

/-- C6 counterexample: on a chain with a single commit, `DeleteCommit` with a
hash that does not match returns `CommitNotFound`, not
`CannotDeleteSoleCommit` — the not-found check runs first. -/
theorem delete_sole_commit_claim_false :
    DeleteCommit (fun _ => false) .ok 0 st0 [c0] c1.hash = (st0, .error .commitNotFound) ∧
    GitError.commitNotFound ≠ GitError.cannotDeleteSoleCommit := by decide

/-- C6 amended: on a single-commit chain `DeleteCommit` always fails without
touching the store, but the error depends on the input hash:
`CannotDeleteSoleCommit` when it matches the sole commit, `CommitNotFound`
otherwise. -/
theorem delete_single_commit_behavior (failAt : Nat → Bool) (push : PushOutcome)
    (now : Int) (st : Store) (c : Commit) (tgt : Hash) :
    DeleteCommit failAt push now st [c] tgt =
      (st, .error (if c.hash = tgt then .cannotDeleteSoleCommit else .commitNotFound)) := by
  unfold DeleteCommit
  by_cases h : c.hash = tgt
  · have hf : findTargetIdx tgt [c] = 0 := by simp [findTargetIdx, h]
    simp [hf, h]
  · have hf : findTargetIdx tgt [c] = -1 := by simp [findTargetIdx, h]
    simp [hf, h]

theorem delete_single_commit_behavior_witness :
    DeleteCommit (fun _ => false) .ok 0 st0 [c0] c0.hash =
      (st0, .error .cannotDeleteSoleCommit) := by
  have h := delete_single_commit_behavior (fun _ => false) .ok 0 st0 c0 c0.hash
  simpa using h

/-- C7 counterexample: a successful rewrite whose final push reports
"already up to date" is returned by `TrimOldCommits` as an error, not as
success — only `PushCommit` normalizes that outcome. -/
theorem push_normalization_claim_false :
    (TrimOldCommits (fun _ => false) .alreadyUpToDate 0 st0 chain2 1).2 =
      .error (.pushFailed "already up-to-date") ∧
    chainRF chain2.reverse = true := by decide

/-- C7 amended: `PushCommit` treats the "already up to date" push outcome as
success; `TrimOldCommits`, `DeleteCommit` and `ModifyCommit` wrap it in the
`push:` error they return to the caller. -/
theorem push_already_up_to_date :
    (∀ (now : Int) (msg : String) (newTree : Nat) (st : Store) (commits : List Commit),
      (PushCommit .alreadyUpToDate now msg newTree st commits).2 = .ok ()) ∧
    (∀ (now : Int) (st : Store) (commits : List Commit) (keep : Int),
      ¬ (commits.length : Int) ≤ keep → 1 ≤ keep →
      (TrimOldCommits (fun _ => false) .alreadyUpToDate now st commits keep).2 =
        .error (.pushFailed "already up-to-date")) ∧
    (∀ (now : Int) (st : Store) (commits : List Commit) (tgt : Hash),
      findTargetIdx tgt commits ≠ -1 → commits.length ≠ 1 →
      (DeleteCommit (fun _ => false) .alreadyUpToDate now st commits tgt).2 =
        .error (.pushFailed "already up-to-date")) ∧
    (∀ (now : Int) (st : Store) (commits : List Commit) (tgt : Hash) (newMsg : String),
      commits.any (fun c => decide (c.hash = tgt)) = true →
      (ModifyCommit (fun _ => false) .alreadyUpToDate now st commits tgt newMsg).2 =
        .error (.pushFailed "already up-to-date")) := by
  refine ⟨?_, ?_, ?_, ?_⟩
  · intro now msg newTree st commits
    unfold PushCommit
    simp
  · intro now st commits keep h1 h2
    rw [trim_run_noFail .alreadyUpToDate now st commits keep h1 h2]
    simp [finishPush]
  · intro now st commits tgt h1 h2
    rw [delete_run_noFail .alreadyUpToDate now st commits tgt h1 h2]
    simp [finishPush]
  · intro now st commits tgt newMsg h1
    rw [modify_run_noFail .alreadyUpToDate now st commits tgt newMsg h1]
    simp [finishPush]

theorem push_already_up_to_date_witness :
    (PushCommit .alreadyUpToDate 0 "m" 3 st0 chain2).2 = .ok () ∧
    (TrimOldCommits (fun _ => false) .alreadyUpToDate 0 st0 chain2 1).2 =
      .error (.pushFailed "already up-to-date") ∧
    (DeleteCommit (fun _ => false) .alreadyUpToDate 0 st0 chain2 c0.hash).2 =
      .error (.pushFailed "already up-to-date") ∧
    (ModifyCommit (fun _ => false) .alreadyUpToDate 0 st0 chain2 c0.hash "z").2 =
      .error (.pushFailed "already up-to-date") :=
  ⟨push_already_up_to_date.1 0 "m" 3 st0 chain2,
   push_already_up_to_date.2.1 0 st0 chain2 1 (by decide) (by decide),
   push_already_up_to_date.2.2.1 0 st0 chain2 c0.hash (by decide) (by decide),
   push_already_up_to_date.2.2.2 0 st0 chain2 c0.hash "z" (by decide)⟩

/-- C8: the iteration of `FetchCommits` treats `max ≤ 0` as unbounded (its
guard is `max > 0 && count >= max`) and `max > 0` as "newest `max` records";
but `make([]SimpleCommit, 0, max)` runs first and panics for every negative
`max`, so `max < 0` crashes instead of returning the full sequence — the
claim holds for `max = 0` and `max > 0` only. -/
theorem fetch_commits_spec :
    FetchCommits chain2 (-1) = .error .makeSliceCapOutOfRange ∧
    (∀ commits : List Commit, FetchCommits commits 0 = .ok (commits.map toSimpleCommit)) ∧
    (∀ (commits : List Commit) (max : Int), 0 < max →
      FetchCommits commits max = .ok ((commits.take max.toNat).map toSimpleCommit)) := by
  refine ⟨by decide, ?_, ?_⟩
  · intro commits
    have h0 : ¬ (0 : Int) < 0 := by omega
    unfold FetchCommits
    rw [if_neg h0, fetchLoop_nonpos 0 le_rfl]
  · intro commits mx h
    have hn : ¬ mx < 0 := by omega
    unfold FetchCommits
    rw [if_neg hn, fetchLoop_pos mx h]
    simp

theorem fetch_commits_spec_witness :
    FetchCommits chain2 1 = .ok ((chain2.take (1 : Int).toNat).map toSimpleCommit) :=
  fetch_commits_spec.2.2 chain2 1 (by decide)

/-- C1 counterexample: `keep = 0` satisfies `keep ≤ L` on a 1-commit chain,
but `TrimOldCommits` panics on the negative index `keep-1` instead of
producing a truncated chain. -/
theorem trim_claim_fails_for_keep_zero :
    chainRF [c0].reverse = true ∧ (0 : Int) ≤ ([c0].length : Int) ∧
    (TrimOldCommits (fun _ => false) .ok 0 st0 [c0] 0).2 = .error .panicIndexOutOfRange := by
  decide

/-- C1 (amended: `1 ≤ keep ≤ L`): with the reference at the chain tip and no
store failures, `TrimOldCommits` succeeds and afterwards the reference
addresses a well-formed chain of exactly `keep` records whose root-first
messages and tree hashes are exactly those of the `keep` newest original
records, whose root has no parent, and every record of which is materialized
(written by the run or already present in the cloned history). -/
theorem trim_truncates_to_keep (now : Int) (st : Store) (commits : List Commit) (keep : Int)
    (hchain : chainRF commits.reverse = true)
    (href : st.refHash = lastHash zeroHash commits.reverse)
    (h1 : 1 ≤ keep) (h2 : keep ≤ (commits.length : Int)) :
    ∃ rf : List Commit,
      (TrimOldCommits (fun _ => false) .ok now st commits keep).2 = .ok () ∧
      (TrimOldCommits (fun _ => false) .ok now st commits keep).1.refHash =
        lastHash zeroHash rf ∧
      chainRF rf = true ∧
      rf.length = keep.toNat ∧
      rf.map (fun c => c.message) =
        ((commits.take keep.toNat).reverse).map (fun c => c.message) ∧
      rf.map (fun c => c.treeHash) =
        ((commits.take keep.toNat).reverse).map (fun c => c.treeHash) ∧
      (rf.getD 0 default).parentHashes = [] ∧
      (∀ c ∈ rf,
        c ∈ (TrimOldCommits (fun _ => false) .ok now st commits keep).1.objects ∨
        c ∈ commits) := by
  by_cases hno : (commits.length : Int) ≤ keep
  · refine ⟨commits.reverse, ?_⟩
    rw [trim_run_noop _ _ _ _ _ _ hno]
    have hlen : keep.toNat = commits.length := by omega
    have htake : commits.take keep.toNat = commits := by
      rw [hlen]
      exact List.take_length commits
    refine ⟨rfl, by simpa using href, hchain, by simp [hlen], by rw [htake],
      by rw [htake], ?_, ?_⟩
    · cases hrev : commits.reverse with
      | nil => rfl
      | cons r rest =>
        rw [hrev] at hchain
        have := (chainRF_head r rest hchain).1
        simp [this]
    · intro c hc
      exact Or.inr (List.mem_reverse.mp hc)
  · have hk1 : 1 ≤ keep.toNat := by omega
    have hkL : keep.toNat ≤ commits.length := by omega
    have hkm1 : keep.toNat - 1 < commits.length := by omega
    have hcrf : chainRF (trimChain now commits keep.toNat) = true := by
      simp only [trimChain, chainRF, Bool.and_eq_true, decide_eq_true_eq]
      exact ⟨rfl, synthChain_linkedRF now _ _ 1 _ one_ne_zero⟩
    have hlen : (trimChain now commits keep.toNat).length = keep.toNat := by
      simp only [trimChain, List.length_cons, synthChain_length, List.length_reverse,
        List.length_take]
      omega
    have h3 : (commits.take keep.toNat).reverse =
        commits.getD (keep.toNat - 1) default :: (commits.take (keep.toNat - 1)).reverse := by
      have hs : keep.toNat = (keep.toNat - 1) + 1 := by omega
      rw [hs]
      exact take_reverse_succ commits (keep.toNat - 1) (by omega)
    have hmsg : (trimChain now commits keep.toNat).map (fun c => c.message) =
        ((commits.take keep.toNat).reverse).map (fun c => c.message) := by
      rw [h3]
      simp only [trimChain, List.map_cons, synthChain_map_message]
      simp [trimRoot]
    have htree : (trimChain now commits keep.toNat).map (fun c => c.treeHash) =
        ((commits.take keep.toNat).reverse).map (fun c => c.treeHash) := by
      rw [h3]
      simp only [trimChain, List.map_cons, synthChain_map_treeHash]
      simp [trimRoot]
    refine ⟨trimChain now commits keep.toNat, ?_⟩
    rw [trim_run_noFail .ok now st commits keep hno h1]
    refine ⟨by simp [finishPush], by simp [finishPush], hcrf, hlen, hmsg, htree,
      by simp [trimChain, trimRoot], ?_⟩
    intro c hc
    left
    simp only [finishPush, List.mem_append]
    exact Or.inr hc

theorem trim_truncates_to_keep_witness :
    chainRF chain2.reverse = true ∧
    (TrimOldCommits (fun _ => false) .ok 0 st0 chain2 1).2 = .ok () := by
  refine ⟨by decide, ?_⟩
  obtain ⟨rf, h⟩ :=
    trim_truncates_to_keep 0 st0 chain2 1 (by decide) (by decide) (by decide) (by decide)
  exact h.1

/-- C2: on a chain of length `L > 1`, deleting a present target hash
succeeds, writes a well-formed chain of `L-1` records that keeps every other
record's message and tree hash in the original relative order (the record
after the deleted one is re-parented onto the rebuilt copy of the record
before it, which is what `chainRF` states of the synthesized chain), and
moves the reference to its tip. -/
theorem delete_removes_target (now : Int) (st : Store) (commits : List Commit) (tgt : Hash)
    (hchain : chainRF commits.reverse = true)
    (hlen : 1 < commits.length)
    (tc : Commit) (htc : tc ∈ commits) (hhash : tc.hash = tgt) :
    ∃ pre post rf,
      commits = pre ++ tc :: post ∧
      (∀ d ∈ pre, d.hash ≠ tgt) ∧ (∀ d ∈ post, d.hash ≠ tgt) ∧
      (DeleteCommit (fun _ => false) .ok now st commits tgt).2 = .ok () ∧
      (DeleteCommit (fun _ => false) .ok now st commits tgt).1.objects = st.objects ++ rf ∧
      (DeleteCommit (fun _ => false) .ok now st commits tgt).1.refHash = lastHash zeroHash rf ∧
      chainRF rf = true ∧
      rf.length = commits.length - 1 ∧
      rf.map (fun c => c.message) = ((pre ++ post).reverse).map (fun c => c.message) ∧
      rf.map (fun c => c.treeHash) = ((pre ++ post).reverse).map (fun c => c.treeHash) := by
  obtain ⟨pre, post, hdec, hpre, hpost⟩ := chain_target_decomp commits tgt hchain tc htc hhash
  have hidx : findTargetIdx tgt commits = (pre.length : Int) := by
    rw [hdec]
    exact findTargetIdx_decomp tgt tc hhash pre post hpost
  have hne : findTargetIdx tgt commits ≠ -1 := by
    rw [hidx]; omega
  have hlen1 : commits.length ≠ 1 := by omega
  have herase : commits.eraseIdx (findTargetIdx tgt commits).toNat = pre ++ post := by
    rw [hidx, Int.toNat_natCast, hdec]
    exact eraseIdx_append_cons tc pre post
  refine ⟨pre, post, synthChain now (fun c => c.message) ((pre ++ post).reverse) 0 zeroHash,
    hdec, hpre, hpost, ?_, ?_, ?_, synthChain_chainRF now _ _ _, ?_, ?_, ?_⟩
  · rw [delete_run_noFail .ok now st commits tgt hne hlen1]
    simp [finishPush]
  · rw [delete_run_noFail .ok now st commits tgt hne hlen1, herase]
    simp [finishPush]
  · rw [delete_run_noFail .ok now st commits tgt hne hlen1, herase]
    simp [finishPush]
  · rw [synthChain_length]
    rw [hdec]
    simp
    omega
  · exact synthChain_map_message now (fun c => c.message) ((pre ++ post).reverse) 0 zeroHash
  · exact synthChain_map_treeHash now (fun c => c.message) ((pre ++ post).reverse) 0 zeroHash

theorem delete_removes_target_witness :
    chainRF chain2.reverse = true ∧ 1 < chain2.length ∧
    (DeleteCommit (fun _ => false) .ok 0 st0 chain2 c0.hash).2 = .ok () := by
  refine ⟨by decide, by decide, ?_⟩
  obtain ⟨pre, post, rf, h⟩ :=
    delete_removes_target 0 st0 chain2 c0.hash (by decide) (by decide) c0 (by decide) rfl
  exact h.2.2.2.1

/-- C3 counterexample, two parts.  (i) Amending the tip's message on the
chain `[c1, c0]` also changes the hash of the root `c0` below the target:
every record is re-synthesized with the MixGram committer, so hashes below
the target are NOT unchanged.  (ii) On the degenerate sole commit `cm`
(committer already the rewrite identity at the rewrite instant) amended to
its own message, the rebuilt record is bit-identical, so its hash — a hash
in the targeted-record-to-tip range — does NOT differ from the original. -/
theorem modify_claim_counterexample :
    (chainRF chain2.reverse = true ∧ c1 ∈ chain2 ∧
      ((ModifyCommit (fun _ => false) .ok 0 st0 chain2 c1.hash "x").1.objects.getD 0
          default).hash ≠ c0.hash) ∧
    (chainRF [cm].reverse = true ∧ cm ∈ [cm] ∧
      ((ModifyCommit (fun _ => false) .ok 5 stm [cm] cm.hash "a").1.objects.getD 0
          default).hash = cm.hash) := by
  decide

/-- C3 (amended): `ModifyCommit` preserves the chain length and every tree
hash, replaces only the targeted record's message, and re-synthesizes every
record with the MixGram committer at the rewrite instant, so original hashes
are not preserved in general: any record whose original committer differs
from the rewrite identity gets a new hash, and once a record's hash changes
every record from it to the tip changes hash as well (the parent link
differs).  Indices below are root-first (`commits.reverse`). -/
theorem modify_amended (now : Int) (st : Store) (commits : List Commit) (tgt : Hash)
    (newMsg : String)
    (hchain : chainRF commits.reverse = true)
    (tc : Commit) (htc : tc ∈ commits) (hhash : tc.hash = tgt) :
    ∃ pre post rf,
      commits = pre ++ tc :: post ∧
      (∀ d ∈ pre, d.hash ≠ tgt) ∧ (∀ d ∈ post, d.hash ≠ tgt) ∧
      (ModifyCommit (fun _ => false) .ok now st commits tgt newMsg).2 = .ok () ∧
      (ModifyCommit (fun _ => false) .ok now st commits tgt newMsg).1.objects =
        st.objects ++ rf ∧
      (ModifyCommit (fun _ => false) .ok now st commits tgt newMsg).1.refHash =
        lastHash zeroHash rf ∧
      chainRF rf = true ∧
      rf.length = commits.length ∧
      rf.map (fun c => c.treeHash) = (commits.reverse).map (fun c => c.treeHash) ∧
      rf.map (fun c => c.message) =
        (post.reverse).map (fun c => c.message) ++
          newMsg :: (pre.reverse).map (fun c => c.message) ∧
      (∀ c ∈ rf, c.committer = mixSig now) ∧
      (∀ i : Nat, i < commits.length →
        ((commits.reverse).getD i default).committer ≠ mixSig now →
        (rf.getD i default).hash ≠ ((commits.reverse).getD i default).hash) ∧
      (∀ i j : Nat, i ≤ j → j < commits.length →
        (rf.getD i default).hash ≠ ((commits.reverse).getD i default).hash →
        (rf.getD j default).hash ≠ ((commits.reverse).getD j default).hash) := by
  obtain ⟨pre, post, hdec, hpre, hpost⟩ := chain_target_decomp commits tgt hchain tc htc hhash
  have hfound : commits.any (fun c => decide (c.hash = tgt)) = true := by
    rw [List.any_eq_true]
    exact ⟨tc, htc, by simp [hhash]⟩
  have hrev : commits.reverse = post.reverse ++ tc :: pre.reverse := by
    rw [hdec]
    simp [List.reverse_append]
  refine ⟨pre, post,
    synthChain now (fun c => if c.hash = tgt then newMsg else c.message) commits.reverse 0 zeroHash,
    hdec, hpre, hpost, ?_, ?_, ?_,
    synthChain_chainRF now _ _ _, ?_, ?_, ?_,
    synthChain_committer now _ _ _ _, ?_, ?_⟩
  · rw [modify_run_noFail .ok now st commits tgt newMsg hfound]
    simp [finishPush]
  · rw [modify_run_noFail .ok now st commits tgt newMsg hfound]
    simp [finishPush]
  · rw [modify_run_noFail .ok now st commits tgt newMsg hfound]
    simp [finishPush]
  · rw [synthChain_length]
    simp
  · exact synthChain_map_treeHash now _ _ _ _
  · rw [synthChain_map_message, hrev, List.map_append, List.map_cons]
    congr 1
    · refine List.map_congr_left fun d hd => ?_
      have hne : d.hash ≠ tgt := hpost d (List.mem_reverse.mp hd)
      simp [hne]
    · congr 1
      · simp [hhash]
      · refine List.map_congr_left fun d hd => ?_
        have hne : d.hash ≠ tgt := hpre d (List.mem_reverse.mp hd)
        simp [hne]
  · intro i hi hcom
    have hirf : i <
        (synthChain now (fun c => if c.hash = tgt then newMsg else c.message)
          commits.reverse 0 zeroHash).length := by
      rw [synthChain_length]
      simpa using hi
    have h1 := synthChain_getD_committer now
      (fun c => if c.hash = tgt then newMsg else c.message) commits.reverse 0 zeroHash i hirf
    refine Commit.hash_ne_of_committer_ne ?_
    rw [h1]
    exact fun he => hcom he.symm
  · intro i j hij
    induction j, hij using Nat.le_induction with
    | base => exact fun _ h => h
    | succ j hij ih =>
      intro hj1 hne_i
      have hjlt : j < commits.length := by omega
      have hne_j := ih hjlt hne_i
      intro heq
      have hcomm := Commit.hash_inj heq
      have hp1 : ((synthChain now (fun c => if c.hash = tgt then newMsg else c.message)
            commits.reverse 0 zeroHash).getD (j + 1) default).parentHashes =
          [((synthChain now (fun c => if c.hash = tgt then newMsg else c.message)
            commits.reverse 0 zeroHash).getD j default).hash] := by
        apply chainRF_getD_step _ (synthChain_chainRF now _ _ _)
        rw [synthChain_length]
        simpa using hj1
      have hp2 : ((commits.reverse).getD (j + 1) default).parentHashes =
          [((commits.reverse).getD j default).hash] := by
        apply chainRF_getD_step _ hchain
        simpa using hj1
      rw [hcomm, hp2] at hp1
      have : ((commits.reverse).getD j default).hash =
          ((synthChain now (fun c => if c.hash = tgt then newMsg else c.message)
            commits.reverse 0 zeroHash).getD j default).hash := by
        simpa using hp1
      exact hne_j this.symm

theorem modify_amended_witness :
    chainRF chain2.reverse = true ∧
    (ModifyCommit (fun _ => false) .ok 0 st0 chain2 c0.hash "z").2 = .ok () := by
  refine ⟨by decide, ?_⟩
  obtain ⟨pre, post, rf, h⟩ :=
    modify_amended 0 st0 chain2 c0.hash "z" (by decide) c0 (by decide) rfl
  exact h.2.2.2.1

theorem finishPush_fst (push : PushOutcome) (st : Store) : (finishPush push st).1 = st := by
  cases push <;> rfl

theorem synthChain_getD_zero_parents (now : Int) (msgOf : Commit → String)
    (olds : List Commit) (cur : Hash) :
    ((synthChain now msgOf olds 0 cur).getD 0 default).parentHashes = [] := by
  cases olds with
  | nil => rfl
  | cons old rest => simp [synthChain]

/-- C4's per-record correspondence: the synthesized root-first list `rf`
rebuilds the surviving originals `olds` changing only the parent links and
the committer: the first record is parentless (new root), every later
record's sole parent is the hash of the immediately preceding *new* record
(`chainRF` — the freshly computed hash, never the original one), tree hashes
and authors are copied verbatim, and the committer is the MixGram identity
at the rewrite instant. -/
def RebuiltFrom (now : Int) (olds rf : List Commit) : Prop :=
  chainRF rf = true ∧
  (rf.getD 0 default).parentHashes = [] ∧
  rf.map (fun c => c.treeHash) = olds.map (fun c => c.treeHash) ∧
  rf.map (fun c => c.author) = olds.map (fun c => c.author) ∧
  (∀ c ∈ rf, c.committer = mixSig now)

/-- C4: each of the three rewrite operations, when it reaches the rewrite
path, writes exactly a synthesized root-first chain that satisfies the
rewrite invariants with respect to its surviving originals (the `keep`
newest for truncate, the chain minus the target for delete, the whole chain
for amend); messages are copied verbatim except that amend replaces the
targeted record's message. -/
theorem rewrite_invariants :
    (∀ (push : PushOutcome) (now : Int) (st : Store) (commits : List Commit) (keep : Int),
      ¬ (commits.length : Int) ≤ keep → 1 ≤ keep →
      (TrimOldCommits (fun _ => false) push now st commits keep).1.objects =
        st.objects ++ trimChain now commits keep.toNat ∧
      RebuiltFrom now ((commits.take keep.toNat).reverse) (trimChain now commits keep.toNat) ∧
      (trimChain now commits keep.toNat).map (fun c => c.message) =
        ((commits.take keep.toNat).reverse).map (fun c => c.message)) ∧
    (∀ (push : PushOutcome) (now : Int) (st : Store) (commits : List Commit) (tgt : Hash),
      findTargetIdx tgt commits ≠ -1 → commits.length ≠ 1 →
      (DeleteCommit (fun _ => false) push now st commits tgt).1.objects =
        st.objects ++ synthChain now (fun c => c.message)
          ((commits.eraseIdx (findTargetIdx tgt commits).toNat).reverse) 0 zeroHash ∧
      RebuiltFrom now ((commits.eraseIdx (findTargetIdx tgt commits).toNat).reverse)
        (synthChain now (fun c => c.message)
          ((commits.eraseIdx (findTargetIdx tgt commits).toNat).reverse) 0 zeroHash) ∧
      (synthChain now (fun c => c.message)
          ((commits.eraseIdx (findTargetIdx tgt commits).toNat).reverse) 0 zeroHash).map
          (fun c => c.message) =
        ((commits.eraseIdx (findTargetIdx tgt commits).toNat).reverse).map
          (fun c => c.message)) ∧
    (∀ (push : PushOutcome) (now : Int) (st : Store) (commits : List Commit) (tgt : Hash)
        (newMsg : String),
      commits.any (fun c => decide (c.hash = tgt)) = true →
      (ModifyCommit (fun _ => false) push now st commits tgt newMsg).1.objects =
        st.objects ++ synthChain now (fun c => if c.hash = tgt then newMsg else c.message)
          commits.reverse 0 zeroHash ∧
      RebuiltFrom now commits.reverse
        (synthChain now (fun c => if c.hash = tgt then newMsg else c.message)
          commits.reverse 0 zeroHash) ∧
      (synthChain now (fun c => if c.hash = tgt then newMsg else c.message)
          commits.reverse 0 zeroHash).map (fun c => c.message) =
        (commits.reverse).map (fun c => if c.hash = tgt then newMsg else c.message)) := by
  refine ⟨?_, ?_, ?_⟩
  · intro push now st commits keep h1 h2
    have hkm1 : keep.toNat - 1 < commits.length := by omega
    have h3 : (commits.take keep.toNat).reverse =
        commits.getD (keep.toNat - 1) default :: (commits.take (keep.toNat - 1)).reverse := by
      have hs : keep.toNat = (keep.toNat - 1) + 1 := by omega
      rw [hs]
      exact take_reverse_succ commits (keep.toNat - 1) (by omega)
    refine ⟨?_, ⟨?_, ?_, ?_, ?_, ?_⟩, ?_⟩
    · rw [trim_run_noFail push now st commits keep h1 h2]
      rw [finishPush_fst]
    · simp only [trimChain, chainRF, Bool.and_eq_true, decide_eq_true_eq]
      exact ⟨rfl, synthChain_linkedRF now _ _ 1 _ one_ne_zero⟩
    · simp [trimChain, trimRoot]
    · rw [h3]
      simp only [trimChain, List.map_cons, synthChain_map_treeHash]
      simp [trimRoot]
    · rw [h3]
      simp only [trimChain, List.map_cons, synthChain_map_author]
      simp [trimRoot]
    · intro c hc
      rcases List.mem_cons.mp hc with h | h
      · rw [h]; rfl
      · exact synthChain_committer now _ _ _ _ c h
    · rw [h3]
      simp only [trimChain, List.map_cons, synthChain_map_message]
      simp [trimRoot]
  · intro push now st commits tgt h1 h2
    refine ⟨?_, ⟨synthChain_chainRF now _ _ _, synthChain_getD_zero_parents now _ _ _,
      synthChain_map_treeHash now _ _ _ _, synthChain_map_author now _ _ _ _,
      synthChain_committer now _ _ _ _⟩, synthChain_map_message now _ _ _ _⟩
    rw [delete_run_noFail push now st commits tgt h1 h2]
    rw [finishPush_fst]
  · intro push now st commits tgt newMsg h1
    refine ⟨?_, ⟨synthChain_chainRF now _ _ _, synthChain_getD_zero_parents now _ _ _,
      synthChain_map_treeHash now _ _ _ _, synthChain_map_author now _ _ _ _,
      synthChain_committer now _ _ _ _⟩, synthChain_map_message now _ _ _ _⟩
    rw [modify_run_noFail push now st commits tgt newMsg h1]
    rw [finishPush_fst]

theorem rewrite_invariants_witness :
    ¬ ((chain2.length : Int) ≤ 1) ∧
    RebuiltFrom 0 ((chain2.take (1 : Int).toNat).reverse) (trimChain 0 chain2 (1 : Int).toNat) :=
  ⟨by decide, (rewrite_invariants.1 .ok 0 st0 chain2 1 (by decide) (by decide)).2.1⟩
